import Mathlib

/-!
Verification development for the EdGrantAI canonicalization and matching
engine (`pipeline/canonical_mapper.py`, `pipeline/matching_engine.py`,
`pipeline/embedding_matcher.py`).

Modelling conventions:
- Python floats are modelled as rationals (`ℚ`); `round(x, n)` is modelled
  as round-half-even on the exact rational value, Python's documented
  rounding mode.
- Python sets of strings are modelled as duplicate-free lists; every
  operation used on them (membership, intersection size, emptiness,
  `sorted`) is order-independent.
- The external OpenAI embedding provider is abstracted into a similarity
  oracle `sim : String → String → ℚ` standing for
  `cosine_similarity(embed_text(phrase), embeddings[tag])`; the scorer's
  per-taxonomy tag-embedding tables are likewise abstracted into a
  tag-to-tag oracle.
- The regex-based guardrail `_allow_mapping` is abstracted into a
  predicate parameter `allow : String → String → Bool`; none of the
  verified properties depend on which phrases the regexes accept.
-/

namespace EdGrant

/-- Round-half-even of a rational to an integer: the semantics of Python
`round` applied to the exact rational value. -/
def rhe (q : ℚ) : ℤ :=
  let f := ⌊q⌋
  if q - f < 1/2 then f
  else if 1/2 < q - f then f + 1
  else if f % 2 = 0 then f else f + 1

/-- Python `round(x, 4)`. -/
def round4 (q : ℚ) : ℚ := (rhe (q * 10000) : ℚ) / 10000

/-- Python `round(x, 3)`. -/
def round3 (q : ℚ) : ℚ := (rhe (q * 1000) : ℚ) / 1000

/-- ASCII lowering of one character: the effect of Python `str.lower` on
the ASCII range. -/
def lowerChar (c : Char) : Char :=
  if 'A' ≤ c ∧ c ≤ 'Z' then Char.ofNat (c.toNat + 32) else c

/-- Python `_normalize_text`: lowercase, then keep only `[a-z0-9]`. -/
def normalize_text (s : String) : String :=
  String.mk ((s.data.map lowerChar).filter (fun c =>
    decide (('a' ≤ c ∧ c ≤ 'z') ∨ ('0' ≤ c ∧ c ≤ '9'))))

/-- Insertion step of a stable sort: `gt a b = true` means `a` must come
strictly before `b`; `a` is placed in front of the first element it must
precede, hence after every element comparing equal to it. -/
def insertSorted (gt : α → α → Bool) (a : α) : List α → List α
  | [] => [a]
  | b :: l => if gt a b then a :: b :: l else b :: insertSorted gt a l

/-- Stable sort by left-to-right insertion, the ordering contract of Python
`sorted`: ties keep their original relative order. -/
def stableSort (gt : α → α → Bool) (l : List α) : List α :=
  l.foldl (fun acc x => insertSorted gt x acc) []

/-- Code-point lexicographic strict comparison of character lists. -/
def charListLt : List Char → List Char → Bool
  | _, [] => false
  | [], _ :: _ => true
  | a :: as, b :: bs =>
    if a.toNat < b.toNat then true
    else if b.toNat < a.toNat then false
    else charListLt as bs

/-- Python `<` on strings: lexicographic by code point. -/
def stringLt (a b : String) : Bool := charListLt a.data b.data

/-- Python `sorted` on a list of strings. -/
def sortStrings (l : List String) : List String := stableSort stringLt l

/-- One element of the `results` list built inside
`map_phrases_to_canonical`: a single pre-deduplication assignment
`{tag, source_text, confidence}`. -/
structure Assignment where
  tag : String
  source_text : String
  confidence : ℚ
deriving DecidableEq

/-- Parameters of one `map_phrases_to_canonical` run after asset loading:
the merged normalized dictionary, the tag keys of the taxonomy embedding
table, the similarity oracle, the guardrail predicate `_allow_mapping`,
the strict and loose thresholds, `top_k`, and the top-1 gate flag. -/
structure MapperParams where
  direct_map : List (String × String)
  table_tags : List String
  sim : String → String → ℚ
  allow : String → String → Bool
  strict : ℚ
  loose : ℚ
  top_k : ℕ
  top1_gate : Bool

/-- Precedence used by `top_k_matches`: higher score first, ties broken by
ascending tag string. -/
def tkPrec (a b : String × ℚ) : Bool :=
  if b.2 < a.2 then true
  else if a.2 = b.2 then stringLt a.1 b.1
  else false

/-- Modelled from the spec: `top_k_matches` is imported from
`pipeline/embedding_matcher.py` by `canonical_mapper.py` but its definition
is absent from the source tree. Spec §4.3: compute a similarity score for
every tag of the table and return the `(tag, score)` pairs sorted
descending by score, ties broken by ascending tag string for determinism,
truncated to the first `k`. -/
def top_k_matches (sim : String → String → ℚ) (phrase : String)
    (table_tags : List String) (k : ℕ) : List (String × ℚ) :=
  (stableSort tkPrec (table_tags.map (fun t => (t, sim phrase t)))).take k

/-- Dictionary step of the per-phrase loop: the normalized phrase is looked
up in `direct_map`; the hit is accepted when the mapped tag is truthy
(non-empty, Python `if direct_tag`) and the guardrail allows it. -/
def dict_tag (p : MapperParams) (phrase : String) : Option String :=
  match List.lookup (normalize_text phrase) p.direct_map with
  | some t => if t ≠ "" ∧ p.allow phrase t = true then some t else none
  | none => none

/-- Python `_append_by_thresh`: accept candidates meeting the threshold and
the guardrail; under the top-1 gate only the best candidate is considered. -/
def accept_by_thresh (p : MapperParams) (phrase : String)
    (cands : List (String × ℚ)) (thresh : ℚ) : List Assignment :=
  if p.top1_gate then
    match cands with
    | [] => []
    | (tag, score) :: _ =>
      if thresh ≤ score ∧ p.allow phrase tag = true then
        [⟨tag, phrase, round4 score⟩] else []
  else
    cands.filterMap (fun c =>
      if thresh ≤ c.2 ∧ p.allow phrase c.1 = true then
        some ⟨c.1, phrase, round4 c.2⟩ else none)

/-- Embedding fallback for one phrase: strict pass first, then a loose
retry only when the strict pass accepted nothing and the loose threshold is
strictly lower than the strict one. -/
def fallback_results (p : MapperParams) (phrase : String) : List Assignment :=
  let cands := top_k_matches p.sim phrase p.table_tags p.top_k
  let strictRes := accept_by_thresh p phrase cands p.strict
  if strictRes = [] then
    if p.loose < p.strict then accept_by_thresh p phrase cands p.loose else []
  else strictRes

/-- Per-phrase step of `map_phrases_to_canonical`: an accepted dictionary
hit is emitted with confidence 1.0 and the embedding fallback is skipped
(`continue`); otherwise the phrase goes to the embedding fallback. -/
def processPhrase (p : MapperParams) (phrase : String) : List Assignment :=
  match dict_tag p phrase with
  | some t => [⟨t, phrase, 1⟩]
  | none => fallback_results p phrase

/-- All pre-deduplication assignments of one run (the `results` list, in
order). -/
def contribs (p : MapperParams) (phrases : List String) : List Assignment :=
  phrases.flatMap (processPhrase p)

/-- One deduplicated output entry of the mapper: tag, representative source
text, best confidence, and all contributing sources. -/
structure DedupEntry where
  tag : String
  source_text : String
  confidence : ℚ
  sources : List String
deriving DecidableEq

/-- Update of an existing `best_by_tag` entry by one further assignment
with the same tag: confidence and representative source upgraded on strict
improvement, the (truthy) source text appended to `sources` when not
already present. -/
def updEntry (item : Assignment) (e : DedupEntry) : DedupEntry :=
  let e1 := if e.confidence < item.confidence then
    { e with confidence := item.confidence, source_text := item.source_text }
    else e
  if item.source_text ≠ "" ∧ item.source_text ∉ e1.sources then
    { e1 with sources := e1.sources ++ [item.source_text] } else e1

/-- One step of the `best_by_tag` deduplication loop: a new tag is
appended; a known tag is updated in place. -/
def dedupStep (acc : List DedupEntry) (item : Assignment) : List DedupEntry :=
  if acc.any (fun e => e.tag == item.tag) then
    acc.map (fun e => if e.tag = item.tag then updEntry item e else e)
  else
    acc ++ [⟨item.tag, item.source_text, item.confidence,
            if item.source_text ≠ "" then [item.source_text] else []⟩]

/-- Deduplicate assignments by tag (`best_by_tag`), tags kept in first-seen
insertion order as in a Python dict. -/
def dedupByTag (raw : List Assignment) : List DedupEntry :=
  raw.foldl dedupStep []

/-- Precedence for the final sort: confidence descending (Python
`sorted(..., reverse=True)` is stable). -/
def confPrec (a b : DedupEntry) : Bool := decide (b.confidence < a.confidence)

/-- Core of `map_phrases_to_canonical` after asset loading: per-phrase
dictionary/similarity mapping, deduplication by tag, confidence-descending
sort, and presentation re-rounding to 4 digits. -/
def mapCore (p : MapperParams) (phrases : List String) : List DedupEntry :=
  (stableSort confPrec (dedupByTag (contribs p phrases))).map
    (fun e => { e with confidence := round4 e.confidence })

/-- Number of similarity-based assignments accepted for a phrase list: the
dictionary path contributes none, the embedding fallback contributes every
accepted candidate (the `appended` counter summed over phrases). -/
def simCount (p : MapperParams) (phrases : List String) : ℕ :=
  (phrases.map (fun ph =>
    match dict_tag p ph with
    | some _ => 0
    | none => (fallback_results p ph).length)).sum

/-- Python dict assignment `m[k] = v`: overwrite in place, or append when
the key is new. -/
def updateKV (m : List (String × String)) (k v : String) :
    List (String × String) :=
  if m.any (fun q => q.1 == k) then
    m.map (fun q => if q.1 = k then (k, v) else q)
  else m ++ [(k, v)]

/-- Dictionary built by `map_phrases_to_canonical`: normalized canonical
tag names first, then the merged synonym map layered on top
(`direct_map.update(syn_map)`). -/
def buildDirectMap (tags : List String) (syns : List (String × String)) :
    List (String × String) :=
  syns.foldl (fun m kv => updateKV m (normalize_text kv.1) kv.2)
    (tags.foldl (fun m t => updateKV m (normalize_text t) t) [])

/-- On-disk assets of one taxonomy as the mapper sees them: the embedding
table (represented by its tag keys, `none` when the file is absent), the
canonical tag list (`none` when the file is absent), and the merged
synonym entries (best-effort, empty when nothing is configured). -/
structure TaxonomyAssets where
  embedding_tags : Option (List String)
  tag_list : Option (List String)
  synonyms : List (String × String)

/-- Python `load_embeddings`: a missing embeddings file raises
`FileNotFoundError`, modelled as `Except.error`. -/
def load_embeddings (a : TaxonomyAssets) : Except String (List String) :=
  match a.embedding_tags with
  | none => Except.error "Missing embeddings for taxonomy"
  | some t => Except.ok t

/-- Mapper parameters assembled by `map_phrases_to_canonical` from loaded
assets and explicit arguments; an absent tag list contributes nothing to
the dictionary (the `except: pass` branch). -/
def mkParams (a : TaxonomyAssets) (table : List String)
    (sim : String → String → ℚ) (allow : String → String → Bool)
    (strict loose : ℚ) (k : ℕ) (top1 : Bool) : MapperParams :=
  ⟨buildDirectMap (a.tag_list.getD []) a.synonyms, table, sim, allow,
   strict, loose, k, top1⟩

/-- Python `map_phrases_to_canonical`: loading a missing embedding table
propagates the not-found error before anything else happens; otherwise the
core mapping runs. Thresholds, `top_k` and the top-1 flag are explicit
arguments (their resolution from `settings` is plain dictionary lookup). -/
def map_phrases_to_canonical (a : TaxonomyAssets)
    (sim : String → String → ℚ) (allow : String → String → Bool)
    (strict loose : ℚ) (k : ℕ) (top1 : Bool) (phrases : List String) :
    Except String (List DedupEntry) :=
  match load_embeddings a with
  | Except.error e => Except.error e
  | Except.ok table =>
      Except.ok (mapCore (mkParams a table sim allow strict loose k top1) phrases)

/-- One org or grant profile as consumed by the scorer: the
`canonical_tags` mapping from taxonomy key to the tag strings of its
assignment list (a missing or falsy `tag` field of an item is modelled as
`""`, which `_tag_set` filters out exactly as Python filters falsy
values). -/
structure Profile where
  canonical_tags : List (String × List String)

/-- Python `_tag_set`: the tags under one taxonomy key as a set
(duplicate-free list); a missing key yields the empty set and falsy tags
are dropped. -/
def tag_set (p : Profile) (key : String) : List String :=
  (((List.lookup key p.canonical_tags).getD []).filter (fun t => decide (t ≠ ""))).dedup

/-- Intersection of two string sets represented as lists. -/
def interTags (o g : List String) : List String :=
  o.filter (fun t => decide (t ∈ g))

/-- Python `_overlap_ratio`. -/
def overlap_ratio (org grant : List String) : ℚ :=
  if org = [] then 0
  else ((interTags org grant).length : ℚ) / ((max 1 org.length : ℕ) : ℚ)

/-- Loaded tag-embedding table of one taxonomy as the scorer sees it:
whether a tag has a truthy vector, and the cosine similarity of two tags
that have vectors. -/
structure TagEmbTable where
  hasVec : String → Bool
  sim : String → String → ℚ

/-- Embedding tables by taxonomy name; `none` models a failed
`load_taxonomy_embeddings` (the `except` fallback branch of
`_semantic_overlap`). -/
structure MatchEnv where
  emb : String → Option TagEmbTable

/-- Inner loop of `_semantic_overlap`: best similarity of an org tag to any
grant tag carrying a vector, starting from 0. -/
def bestSim (tbl : TagEmbTable) (ot : String) (grant : List String) : ℚ :=
  (grant.map (fun gt => if tbl.hasVec gt then tbl.sim ot gt else 0)).foldl max 0

/-- Score of one org tag inside `_semantic_overlap`: exact membership when
the tag has no vector, thresholded best similarity otherwise. -/
def orgTagScore (tbl : TagEmbTable) (thr : ℚ) (grant : List String)
    (ot : String) : ℚ :=
  if tbl.hasVec ot = false then (if ot ∈ grant then 1 else 0)
  else if thr ≤ bestSim tbl ot grant then bestSim tbl ot grant else 0

/-- Python `_semantic_overlap`: average of per-org-tag scores; exact
overlap ratio when the embedding load failed; 0 for an empty org set. -/
def semantic_overlap (env : MatchEnv) (thr : ℚ) (name : String)
    (org grant : List String) : ℚ :=
  if org = [] then 0
  else match env.emb name with
  | none => overlap_ratio org grant
  | some tbl => ((org.map (orgTagScore tbl thr grant)).sum) / ((org.length : ℕ) : ℚ)

/-- Python `_geography_overlap`. -/
def geography_overlap (org grant : List String) : ℚ :=
  if org = [] then 0
  else if "us_national" ∈ grant then (if org ≠ [] then 1 else 0)
  else overlap_ratio org grant

/-- Python `_hard_block`: some grant red flag has a configured rule whose
non-empty `any_of` set is disjoint from the org's org-type tags. -/
def hard_block (rules : List (String × List String))
    (orgTypes redFlags : List String) : Bool :=
  redFlags.any (fun rf =>
    match List.lookup rf rules with
    | none => false
    | some req => !req.isEmpty && req.all (fun t => decide (t ∉ orgTypes)))

/-- Rendering of `sorted(tag_set)` inside a reason string. -/
def fmtTags (tags : List String) : String :=
  "[" ++ String.intercalate ", " (sortStrings tags) ++ "]"

/-- Reason emitted on a hard block. -/
def hardBlockReason (redFlags : List String) : String :=
  "Hard block due to red flags: " ++ fmtTags redFlags

/-- Scorer weights, bucket thresholds, red-flag penalty, semantic
similarity floor and hard-block rules (`settings.MATCH_*`). -/
structure MatchSettings where
  wMission : ℚ
  wPopulation : ℚ
  wGeography : ℚ
  wOrgType : ℚ
  applyThreshold : ℚ
  maybeThreshold : ℚ
  redFlagPenalty : ℚ
  taxSimThreshold : ℚ
  hardBlocks : List (String × List String)

/-- Python `_score_and_reasons`, the body of `scoreMatch`: hard block
short-circuit, weighted per-taxonomy overlaps, red-flag penalty, rounding,
bucketing, and literal-intersection reasons. -/
def score_and_reasons (st : MatchSettings) (env : MatchEnv)
    (org grant : Profile) : ℚ × String × List String :=
  let oMission := tag_set org "mission_tags"
  let oPop := tag_set org "population_tags"
  let oOrg := tag_set org "org_type_tags"
  let oGeo := tag_set org "geography_tags"
  let gMission := tag_set grant "mission_tags"
  let gPop := tag_set grant "population_tags"
  let gOrg := tag_set grant "org_type_tags"
  let gGeo := tag_set grant "geography_tags"
  let redFlags := tag_set grant "red_flag_tags"
  if hard_block st.hardBlocks oOrg redFlags then
    (0, "Avoid", [hardBlockReason redFlags])
  else
    let mission := semantic_overlap env st.taxSimThreshold "mission_tags" oMission gMission * st.wMission
    let pop := semantic_overlap env st.taxSimThreshold "population_tags" oPop gPop * st.wPopulation
    let geo := geography_overlap oGeo gGeo * st.wGeography
    let orgtype := (if interTags oOrg gOrg ≠ [] then 1 else 0) * st.wOrgType
    let score0 := mission + pop + geo + orgtype
    let score1 := if redFlags ≠ [] then score0 * st.redFlagPenalty else score0
    let score := round3 score1
    let bucket := if st.applyThreshold ≤ score then "Apply"
      else if st.maybeThreshold ≤ score then "Maybe" else "Avoid"
    let reasons :=
      (if oMission ≠ [] ∧ interTags oMission gMission ≠ [] then
        ["Mission overlap: " ++ fmtTags (interTags oMission gMission)] else []) ++
      (if oPop ≠ [] ∧ interTags oPop gPop ≠ [] then
        ["Population overlap: " ++ fmtTags (interTags oPop gPop)] else []) ++
      (if interTags oOrg gOrg ≠ [] then
        ["Org type ok: " ++ fmtTags (interTags oOrg gOrg)] else []) ++
      (if interTags oGeo gGeo ≠ [] then
        ["Geography overlap: " ++ fmtTags (interTags oGeo gGeo)] else []) ++
      (if redFlags ≠ [] then ["Red flags: " ++ fmtTags redFlags] else [])
    (score, bucket, reasons)

/-- Profile with one explicit empty taxonomy key appended to
`canonical_tags`. -/
def withEmptyKey (p : Profile) (key : String) : Profile :=
  ⟨p.canonical_tags ++ [(key, [])]⟩

/-- Invariant tying a `best_by_tag` accumulator to the list of assignments
already consumed: tags are unique, exactly the contributed tags appear,
each entry carries the confidence and source text of one contribution,
that confidence is maximal among the contributions for the tag, and
`sources` holds exactly the non-empty contributing source texts, without
duplicates. -/
def DedupInv (raw : List Assignment) (acc : List DedupEntry) : Prop :=
  ((acc.map (fun e => e.tag)).Nodup) ∧
  (∀ t, (∃ e ∈ acc, e.tag = t) ↔ (∃ r ∈ raw, r.tag = t)) ∧
  (∀ e ∈ acc, ∃ r ∈ raw, r.tag = e.tag ∧ r.confidence = e.confidence ∧
    r.source_text = e.source_text) ∧
  (∀ e ∈ acc, ∀ r ∈ raw, r.tag = e.tag → r.confidence ≤ e.confidence) ∧
  (∀ e ∈ acc, e.sources.Nodup ∧ ∀ s, (s ∈ e.sources ↔
    (s ≠ "" ∧ ∃ r ∈ raw, r.tag = e.tag ∧ r.source_text = s)))

/-! ### Rounding lemmas -/

theorem rhe_intCast (n : ℤ) : rhe (n : ℚ) = n := by
  simp only [rhe]
  rw [Int.floor_intCast]
  norm_num

theorem rhe_ge_floor (q : ℚ) : ⌊q⌋ ≤ rhe q := by
  simp only [rhe]; split_ifs <;> omega

theorem rhe_le_floor_add_one (q : ℚ) : rhe q ≤ ⌊q⌋ + 1 := by
  simp only [rhe]; split_ifs <;> omega

theorem rhe_nonneg {q : ℚ} (h : 0 ≤ q) : 0 ≤ rhe q := by
  have h1 : (0:ℤ) ≤ ⌊q⌋ := Int.floor_nonneg.mpr h
  have h2 := rhe_ge_floor q
  omega

theorem rhe_le_of_le {q : ℚ} {n : ℤ} (h : q ≤ (n:ℚ)) : rhe q ≤ n := by
  rcases eq_or_lt_of_le h with h' | h'
  · rw [h', rhe_intCast]
  · have h1 : ⌊q⌋ < n := by
      by_contra hc
      push_neg at hc
      exact absurd (Int.le_floor.mp hc) (not_le.mpr h')
    have h2 := rhe_le_floor_add_one q
    omega

theorem round4_idem (q : ℚ) : round4 (round4 q) = round4 q := by
  unfold round4
  have h : (rhe (q * 10000) : ℚ) / 10000 * 10000 = ((rhe (q * 10000) : ℚ)) := by ring
  rw [h, rhe_intCast]

theorem round4_one : round4 1 = 1 := by
  unfold round4
  have h : (1 : ℚ) * 10000 = ((10000 : ℤ) : ℚ) := by norm_num
  rw [h, rhe_intCast]
  norm_num

theorem round4_nonneg {q : ℚ} (h : 0 ≤ q) : 0 ≤ round4 q := by
  unfold round4
  have h1 : (0:ℤ) ≤ rhe (q * 10000) := rhe_nonneg (by positivity)
  have h2 : (0:ℚ) ≤ (rhe (q * 10000) : ℚ) := by exact_mod_cast h1
  positivity

theorem round4_le_one {q : ℚ} (h : q ≤ 1) : round4 q ≤ 1 := by
  unfold round4
  have h1 : rhe (q * 10000) ≤ 10000 := rhe_le_of_le (by push_cast; linarith)
  rw [div_le_one (by norm_num)]
  exact_mod_cast h1

/-! ### Stable sort lemmas -/

theorem insertSorted_perm (gt : α → α → Bool) (a : α) (l : List α) :
    List.Perm (insertSorted gt a l) (a :: l) := by
  induction l with
  | nil => exact List.Perm.refl _
  | cons b l ih =>
    simp only [insertSorted]
    split
    · exact List.Perm.refl _
    · exact (List.Perm.cons b ih).trans (List.Perm.swap a b l)

theorem foldl_insertSorted_perm (gt : α → α → Bool) (l acc : List α) :
    List.Perm (l.foldl (fun acc x => insertSorted gt x acc) acc) (acc ++ l) := by
  induction l generalizing acc with
  | nil => simp
  | cons x l ih =>
    have h1 : List.Perm (l.foldl (fun acc x => insertSorted gt x acc) (insertSorted gt x acc))
        ((insertSorted gt x acc) ++ l) := ih _
    have h2 : List.Perm ((insertSorted gt x acc) ++ l) ((x :: acc) ++ l) :=
      (insertSorted_perm gt x acc).append_right l
    have h3 : List.Perm ((x :: acc) ++ l) (acc ++ x :: l) := List.perm_middle.symm
    exact (h1.trans h2).trans h3

theorem stableSort_perm (gt : α → α → Bool) (l : List α) :
    List.Perm (stableSort gt l) l := by
  simpa using foldl_insertSorted_perm gt l []

theorem mem_stableSort (gt : α → α → Bool) (l : List α) (x : α) :
    x ∈ stableSort gt l ↔ x ∈ l :=
  (stableSort_perm gt l).mem_iff

theorem insertSorted_pairwise (gt : α → α → Bool)
    (H1 : ∀ x y, gt x y = true → gt y x = false)
    (H2 : ∀ x y z, gt y x = false → gt z y = false → gt z x = false)
    (a : α) (l : List α) (hl : l.Pairwise (fun x y => gt y x = false)) :
    (insertSorted gt a l).Pairwise (fun x y => gt y x = false) := by
  induction l with
  | nil => simp [insertSorted]
  | cons b l ih =>
    rcases List.pairwise_cons.mp hl with ⟨hb, hl'⟩
    simp only [insertSorted]
    split
    · rename_i hab
      refine List.pairwise_cons.mpr ⟨?_, hl⟩
      intro c hc
      rcases List.mem_cons.mp hc with hceq | hc
      · rw [hceq]; exact H1 a b hab
      · exact H2 a b c (H1 a b hab) (hb c hc)
    · rename_i hab
      refine List.pairwise_cons.mpr ⟨?_, ih hl'⟩
      intro c hc
      have hc0 : c ∈ a :: l := (insertSorted_perm gt a l).mem_iff.mp hc
      rcases List.mem_cons.mp hc0 with hceq | hc'
      · rw [hceq]; exact Bool.eq_false_iff.mpr (fun h => hab h)
      · exact hb c hc'

theorem stableSort_pairwise (gt : α → α → Bool)
    (H1 : ∀ x y, gt x y = true → gt y x = false)
    (H2 : ∀ x y z, gt y x = false → gt z y = false → gt z x = false)
    (l : List α) :
    (stableSort gt l).Pairwise (fun x y => gt y x = false) := by
  have aux : ∀ (l acc : List α), acc.Pairwise (fun x y => gt y x = false) →
      (l.foldl (fun acc x => insertSorted gt x acc) acc).Pairwise
        (fun x y => gt y x = false) := by
    intro l
    induction l with
    | nil => intro acc h; simpa using h
    | cons x l ih =>
      intro acc h
      exact ih _ (insertSorted_pairwise gt H1 H2 x acc h)
  exact aux l [] (by simp)

theorem stableSort_length (gt : α → α → Bool) (l : List α) :
    (stableSort gt l).length = l.length :=
  (stableSort_perm gt l).length_eq

/-! ### Code-point string order lemmas -/

theorem charListLt_nil (as : List Char) : charListLt as [] = false := by
  cases as <;> rfl

theorem charListLt_asymm : ∀ {as bs : List Char},
    charListLt as bs = true → charListLt bs as = false := by
  intro as
  induction as with
  | nil =>
    intro bs h
    cases bs with
    | nil => simp [charListLt] at h
    | cons b bs => exact charListLt_nil _
  | cons a as ih =>
    intro bs h
    cases bs with
    | nil => simp [charListLt_nil] at h
    | cons b bs =>
      simp only [charListLt] at h ⊢
      split_ifs at h ⊢ <;> first | rfl | omega | exact ih h

theorem charListLt_negtrans : ∀ {as bs cs : List Char},
    charListLt bs as = false → charListLt cs bs = false → charListLt cs as = false := by
  intro as
  induction as with
  | nil =>
    intro bs cs h1 h2
    exact charListLt_nil cs
  | cons a as ih =>
    intro bs cs h1 h2
    cases bs with
    | nil => simp [charListLt] at h1
    | cons b bs =>
      cases cs with
      | nil => simp [charListLt] at h2
      | cons c cs =>
        simp only [charListLt] at h1 h2 ⊢
        split_ifs at h1 h2 ⊢ <;> first | rfl | omega | exact ih h1 h2

theorem stringLt_asymm (a b : String) (h : stringLt a b = true) :
    stringLt b a = false :=
  charListLt_asymm h

theorem stringLt_negtrans (a b c : String) (h1 : stringLt b a = false)
    (h2 : stringLt c b = false) : stringLt c a = false :=
  charListLt_negtrans h1 h2

/-! ### Precedence relations used by the two sorts -/

theorem tkPrec_eq_false_iff (a b : String × ℚ) :
    tkPrec a b = false ↔ (¬ b.2 < a.2 ∧ (a.2 = b.2 → stringLt a.1 b.1 = false)) := by
  unfold tkPrec
  split_ifs with h1 h2 <;> simp_all

theorem tkPrec_asymm (x y : String × ℚ) (h : tkPrec x y = true) :
    tkPrec y x = false := by
  unfold tkPrec at h
  rw [tkPrec_eq_false_iff]
  split_ifs at h with h1 h2
  · exact ⟨by linarith, fun he => absurd he (ne_of_lt h1)⟩
  · exact ⟨by rw [h2]; exact lt_irrefl _, fun _ => stringLt_asymm _ _ h⟩

theorem tkPrec_negtrans (x y z : String × ℚ)
    (h1 : tkPrec y x = false) (h2 : tkPrec z y = false) : tkPrec z x = false := by
  rw [tkPrec_eq_false_iff] at h1 h2 ⊢
  have hyx : y.2 ≤ x.2 := le_of_not_lt h1.1
  have hzy : z.2 ≤ y.2 := le_of_not_lt h2.1
  refine ⟨not_lt.mpr (le_trans hzy hyx), fun heq => ?_⟩
  have hxy : x.2 ≤ y.2 := by rw [← heq]; exact hzy
  have h3 : y.2 = x.2 := le_antisymm hyx hxy
  have h4 : z.2 = y.2 := by rw [heq, h3]
  exact stringLt_negtrans _ _ _ (h1.2 h3) (h2.2 h4)

theorem confPrec_asymm (x y : DedupEntry) (h : confPrec x y = true) :
    confPrec y x = false := by
  simp only [confPrec, decide_eq_true_eq, decide_eq_false_iff_not] at h ⊢
  linarith

theorem confPrec_negtrans (x y z : DedupEntry)
    (h1 : confPrec y x = false) (h2 : confPrec z y = false) : confPrec z x = false := by
  simp only [confPrec, decide_eq_false_iff_not] at h1 h2 ⊢
  intro h
  exact absurd h (not_lt.mpr (le_trans (le_of_not_lt h2) (le_of_not_lt h1)))

/-! ### Deduplication invariant -/

theorem updEntry_tag (item : Assignment) (e : DedupEntry) :
    (updEntry item e).tag = e.tag := by
  unfold updEntry
  by_cases hc : e.confidence < item.confidence <;> simp [hc] <;> split <;> rfl

theorem updEntry_confidence (item : Assignment) (e : DedupEntry) :
    (updEntry item e).confidence =
      if e.confidence < item.confidence then item.confidence else e.confidence := by
  unfold updEntry
  by_cases hc : e.confidence < item.confidence <;> simp [hc] <;> split <;> rfl

theorem updEntry_source_text (item : Assignment) (e : DedupEntry) :
    (updEntry item e).source_text =
      if e.confidence < item.confidence then item.source_text else e.source_text := by
  unfold updEntry
  by_cases hc : e.confidence < item.confidence <;> simp [hc] <;> split <;> rfl

theorem updEntry_sources (item : Assignment) (e : DedupEntry) :
    (updEntry item e).sources =
      if item.source_text ≠ "" ∧ item.source_text ∉ e.sources then
        e.sources ++ [item.source_text] else e.sources := by
  unfold updEntry
  by_cases hc : e.confidence < item.confidence <;> simp [hc] <;> split_ifs <;> rfl

theorem updEntry_confidence_ge (item : Assignment) (e : DedupEntry) :
    e.confidence ≤ (updEntry item e).confidence := by
  rw [updEntry_confidence]
  split_ifs with hc
  · exact le_of_lt hc
  · exact le_refl _

theorem updEntry_confidence_ge_item (item : Assignment) (e : DedupEntry) :
    item.confidence ≤ (updEntry item e).confidence := by
  rw [updEntry_confidence]
  split_ifs with hc
  · exact le_refl _
  · exact le_of_not_lt hc

theorem dedupInv_step {raw : List Assignment} {acc : List DedupEntry}
    (h : DedupInv raw acc) (item : Assignment) :
    DedupInv (raw ++ [item]) (dedupStep acc item) := by
  obtain ⟨h1, h2, h3, h4, h5⟩ := h
  unfold dedupStep
  by_cases hany : acc.any (fun e => e.tag == item.tag) = true
  · rw [if_pos hany]
    have hex : ∃ e ∈ acc, e.tag = item.tag := by
      rcases List.any_eq_true.mp hany with ⟨e, he, heq⟩
      exact ⟨e, he, by simpa using heq⟩
    have gtag : ∀ e : DedupEntry,
        ((if e.tag = item.tag then updEntry item e else e)).tag = e.tag := by
      intro e
      split
      · exact updEntry_tag item e
      · rfl
    refine ⟨?_, ?_, ?_, ?_, ?_⟩
    · have hmapeq : ((acc.map (fun e => if e.tag = item.tag then updEntry item e else e)).map
          (fun e => e.tag)) = acc.map (fun e => e.tag) := by
        rw [List.map_map]
        exact List.map_congr_left (fun e _ => gtag e)
      rw [hmapeq]
      exact h1
    · intro t
      constructor
      · rintro ⟨e', he', rfl⟩
        rcases List.mem_map.mp he' with ⟨e, he, rfl⟩
        rw [gtag e]
        rcases (h2 e.tag).mp ⟨e, he, rfl⟩ with ⟨r, hr, hrt⟩
        exact ⟨r, List.mem_append_left _ hr, hrt⟩
      · rintro ⟨r, hr, rfl⟩
        rcases List.mem_append.mp hr with hr' | hr'
        · rcases (h2 r.tag).mpr ⟨r, hr', rfl⟩ with ⟨e, he, het⟩
          refine ⟨(fun e => if e.tag = item.tag then updEntry item e else e) e,
            List.mem_map.mpr ⟨e, he, rfl⟩, ?_⟩
          rw [gtag e]
          exact het
        · rcases hex with ⟨e, he, het⟩
          have hri : r = item := List.mem_singleton.mp hr'
          refine ⟨(fun e => if e.tag = item.tag then updEntry item e else e) e,
            List.mem_map.mpr ⟨e, he, rfl⟩, ?_⟩
          rw [gtag e, het, hri]
    · intro e' he'
      rcases List.mem_map.mp he' with ⟨e, he, rfl⟩
      by_cases ht : e.tag = item.tag
      · simp only [if_pos ht]
        by_cases hc : e.confidence < item.confidence
        · refine ⟨item, List.mem_append_right _ (List.mem_singleton.mpr rfl), ?_, ?_, ?_⟩
          · rw [updEntry_tag, ht]
          · rw [updEntry_confidence, if_pos hc]
          · rw [updEntry_source_text, if_pos hc]
        · rcases h3 e he with ⟨r, hr, hrt, hrc, hrs⟩
          refine ⟨r, List.mem_append_left _ hr, ?_, ?_, ?_⟩
          · rw [updEntry_tag]; exact hrt
          · rw [updEntry_confidence, if_neg hc]; exact hrc
          · rw [updEntry_source_text, if_neg hc]; exact hrs
      · simp only [if_neg ht]
        rcases h3 e he with ⟨r, hr, hrt, hrc, hrs⟩
        exact ⟨r, List.mem_append_left _ hr, hrt, hrc, hrs⟩
    · intro e' he' r hr hrt
      rcases List.mem_map.mp he' with ⟨e, he, rfl⟩
      rcases List.mem_append.mp hr with hr' | hr'
      · by_cases ht : e.tag = item.tag
        · have hle : r.confidence ≤ e.confidence := by
            apply h4 e he r hr'
            rw [gtag e] at hrt
            exact hrt
          simp only [if_pos ht]
          exact le_trans hle (updEntry_confidence_ge item e)
        · simp only [if_neg ht] at hrt ⊢
          exact h4 e he r hr' hrt
      · have hri : r = item := List.mem_singleton.mp hr'
        rw [gtag e] at hrt
        have ht : e.tag = item.tag := by rw [← hrt, hri]
        simp only [if_pos ht]
        rw [hri]
        exact updEntry_confidence_ge_item item e
    · intro e' he'
      rcases List.mem_map.mp he' with ⟨e, he, rfl⟩
      rcases h5 e he with ⟨hnd, hiff⟩
      by_cases ht : e.tag = item.tag
      · simp only [if_pos ht]
        constructor
        · rw [updEntry_sources]
          split_ifs with hc2
          · exact List.Nodup.append hnd (List.nodup_singleton _)
              (by simpa using fun hmem => hc2.2 hmem)
          · exact hnd
        · intro s
          rw [updEntry_sources, updEntry_tag]
          constructor
          · intro hs
            by_cases hc2 : item.source_text ≠ "" ∧ item.source_text ∉ e.sources
            · rw [if_pos hc2] at hs
              rcases List.mem_append.mp hs with hs' | hs'
              · rcases (hiff s).mp hs' with ⟨hne, r, hr, hrt, hrs⟩
                exact ⟨hne, r, List.mem_append_left _ hr, hrt, hrs⟩
              · have hsi : s = item.source_text := List.mem_singleton.mp hs'
                refine ⟨by rw [hsi]; exact hc2.1, item,
                  List.mem_append_right _ (List.mem_singleton.mpr rfl), ht.symm, hsi.symm⟩
            · rw [if_neg hc2] at hs
              rcases (hiff s).mp hs with ⟨hne, r, hr, hrt, hrs⟩
              exact ⟨hne, r, List.mem_append_left _ hr, hrt, hrs⟩
          · rintro ⟨hne, r, hr, hrt, hrs⟩
            rcases List.mem_append.mp hr with hr' | hr'
            · have hold : s ∈ e.sources := (hiff s).mpr ⟨hne, r, hr', hrt, hrs⟩
              split_ifs with hc2
              · exact List.mem_append_left _ hold
              · exact hold
            · have hri : r = item := List.mem_singleton.mp hr'
              have hsit : s = item.source_text := by rw [← hrs, hri]
              split_ifs with hc2
              · exact List.mem_append_right _ (List.mem_singleton.mpr hsit)
              · rcases not_and_or.mp hc2 with hc2' | hc2'
                · exact absurd (hsit ▸ hne) hc2'
                · rw [hsit]
                  exact not_not.mp hc2'
      · simp only [if_neg ht]
        refine ⟨hnd, fun s => ?_⟩
        constructor
        · intro hs
          rcases (hiff s).mp hs with ⟨hne, r, hr, hrt, hrs⟩
          exact ⟨hne, r, List.mem_append_left _ hr, hrt, hrs⟩
        · rintro ⟨hne, r, hr, hrt, hrs⟩
          rcases List.mem_append.mp hr with hr' | hr'
          · exact (hiff s).mpr ⟨hne, r, hr', hrt, hrs⟩
          · have hri : r = item := List.mem_singleton.mp hr'
            rw [hri] at hrt
            exact absurd hrt.symm ht
  · rw [if_neg hany]
    have hnotin : ∀ e ∈ acc, e.tag ≠ item.tag := by
      intro e he heq
      exact hany (List.any_eq_true.mpr ⟨e, he, by simpa using heq⟩)
    have hrawno : ∀ r ∈ raw, r.tag ≠ item.tag := by
      intro r hr heq
      rcases (h2 item.tag).mpr ⟨r, hr, heq⟩ with ⟨e, he, he2⟩
      exact hnotin e he he2
    refine ⟨?_, ?_, ?_, ?_, ?_⟩
    · rw [List.map_append]
      refine List.Nodup.append h1 (by simp) ?_
      intro t ht1 ht2
      simp only [List.map_cons, List.map_nil, List.mem_singleton] at ht2
      rcases List.mem_map.mp ht1 with ⟨e, he, rfl⟩
      exact hnotin e he ht2
    · intro t
      constructor
      · rintro ⟨e', he', rfl⟩
        rcases List.mem_append.mp he' with he' | he'
        · rcases (h2 e'.tag).mp ⟨e', he', rfl⟩ with ⟨r, hr, hrt⟩
          exact ⟨r, List.mem_append_left _ hr, hrt⟩
        · have : e' = ⟨item.tag, item.source_text, item.confidence,
              if item.source_text ≠ "" then [item.source_text] else []⟩ :=
            List.mem_singleton.mp he'
          exact ⟨item, List.mem_append_right _ (List.mem_singleton.mpr rfl),
            by rw [this]⟩
      · rintro ⟨r, hr, rfl⟩
        rcases List.mem_append.mp hr with hr' | hr'
        · rcases (h2 r.tag).mpr ⟨r, hr', rfl⟩ with ⟨e, he, het⟩
          exact ⟨e, List.mem_append_left _ he, het⟩
        · have hri : r = item := List.mem_singleton.mp hr'
          refine ⟨⟨item.tag, item.source_text, item.confidence,
            if item.source_text ≠ "" then [item.source_text] else []⟩,
            List.mem_append_right _ (List.mem_singleton.mpr rfl), by rw [hri]⟩
    · intro e' he'
      rcases List.mem_append.mp he' with he' | he'
      · rcases h3 e' he' with ⟨r, hr, hrt, hrc, hrs⟩
        exact ⟨r, List.mem_append_left _ hr, hrt, hrc, hrs⟩
      · have : e' = ⟨item.tag, item.source_text, item.confidence,
            if item.source_text ≠ "" then [item.source_text] else []⟩ :=
          List.mem_singleton.mp he'
        exact ⟨item, List.mem_append_right _ (List.mem_singleton.mpr rfl),
          by rw [this], by rw [this], by rw [this]⟩
    · intro e' he' r hr hrt
      rcases List.mem_append.mp he' with he' | he'
      · rcases List.mem_append.mp hr with hr' | hr'
        · exact h4 e' he' r hr' hrt
        · have hri : r = item := List.mem_singleton.mp hr'
          rw [hri] at hrt
          exact absurd hrt.symm (hnotin e' he')
      · have he'' : e' = ⟨item.tag, item.source_text, item.confidence,
            if item.source_text ≠ "" then [item.source_text] else []⟩ :=
          List.mem_singleton.mp he'
        rcases List.mem_append.mp hr with hr' | hr'
        · exact absurd (by rw [he''] at hrt; exact hrt) (hrawno r hr')
        · have hri : r = item := List.mem_singleton.mp hr'
          rw [hri, he'']
    · intro e' he'
      rcases List.mem_append.mp he' with he' | he'
      · rcases h5 e' he' with ⟨hnd, hiff⟩
        refine ⟨hnd, fun s => ?_⟩
        constructor
        · intro hs
          rcases (hiff s).mp hs with ⟨hne, r, hr, hrt, hrs⟩
          exact ⟨hne, r, List.mem_append_left _ hr, hrt, hrs⟩
        · rintro ⟨hne, r, hr, hrt, hrs⟩
          rcases List.mem_append.mp hr with hr' | hr'
          · exact (hiff s).mpr ⟨hne, r, hr', hrt, hrs⟩
          · have hri : r = item := List.mem_singleton.mp hr'
            rw [hri] at hrt
            exact absurd hrt.symm (hnotin e' he')
      · have he'' : e' = ⟨item.tag, item.source_text, item.confidence,
            if item.source_text ≠ "" then [item.source_text] else []⟩ :=
          List.mem_singleton.mp he'
        constructor
        · rw [he'']
          split_ifs <;> simp
        · intro s
          rw [he'']
          constructor
          · intro hs
            split_ifs at hs with hne
            · have hsi : s = item.source_text := List.mem_singleton.mp hs
              exact ⟨by rw [hsi]; exact hne, item,
                List.mem_append_right _ (List.mem_singleton.mpr rfl), rfl, hsi.symm⟩
            · exact absurd hs (List.not_mem_nil s)
          · rintro ⟨hne, r, hr, hrt, hrs⟩
            rcases List.mem_append.mp hr with hr' | hr'
            · exact absurd hrt (hrawno r hr')
            · have hri : r = item := List.mem_singleton.mp hr'
              have hsit : item.source_text = s := by rw [← hrs, hri]
              rw [← hsit] at hne ⊢
              rw [if_pos hne]
              exact List.mem_singleton.mpr rfl

theorem dedupInv_nil : DedupInv [] [] := by
  refine ⟨List.nodup_nil, ?_, ?_, ?_, ?_⟩ <;> simp

theorem dedupInv_foldl (items : List Assignment) :
    ∀ {raw : List Assignment} {acc : List DedupEntry}, DedupInv raw acc →
    DedupInv (raw ++ items) (items.foldl dedupStep acc) := by
  induction items with
  | nil => intro raw acc h; simpa using h
  | cons it its ih =>
    intro raw acc h
    have h1 := dedupInv_step h it
    have h2 := ih h1
    simpa using h2

theorem dedupByTag_inv (raw : List Assignment) : DedupInv raw (dedupByTag raw) := by
  simpa using dedupInv_foldl raw dedupInv_nil

/-! ### Membership characterizations of the mapper pipeline -/

theorem mem_accept_by_thresh {p : MapperParams} {phrase : String}
    {cands : List (String × ℚ)} {thresh : ℚ} {x : Assignment}
    (hx : x ∈ accept_by_thresh p phrase cands thresh) :
    ∃ c ∈ cands, x = ⟨c.1, phrase, round4 c.2⟩ ∧ thresh ≤ c.2 ∧
      p.allow phrase c.1 = true := by
  unfold accept_by_thresh at hx
  split at hx
  · cases cands with
    | nil => simp at hx
    | cons c cs =>
      cases c with
      | mk t sc =>
        dsimp only at hx
        split_ifs at hx with hcond
        · have hxx : x = ⟨t, phrase, round4 sc⟩ := List.mem_singleton.mp hx
          exact ⟨(t, sc), List.mem_cons_self _ _, hxx, hcond.1, hcond.2⟩
        · simp at hx
  · rcases List.mem_filterMap.mp hx with ⟨c, hc, hcx⟩
    split_ifs at hcx with hcond
    exact ⟨c, hc, (Option.some_inj.mp hcx).symm, hcond.1, hcond.2⟩

theorem mem_fallback_results {p : MapperParams} {phrase : String} {x : Assignment}
    (hx : x ∈ fallback_results p phrase) :
    ∃ c ∈ top_k_matches p.sim phrase p.table_tags p.top_k,
      x = ⟨c.1, phrase, round4 c.2⟩ ∧ (p.strict ≤ c.2 ∨ p.loose ≤ c.2) ∧
      p.allow phrase c.1 = true := by
  simp only [fallback_results] at hx
  split_ifs at hx with h1 h2
  · rcases mem_accept_by_thresh hx with ⟨c, hc, hxx, hth, ha⟩
    exact ⟨c, hc, hxx, Or.inr hth, ha⟩
  · simp at hx
  · rcases mem_accept_by_thresh hx with ⟨c, hc, hxx, hth, ha⟩
    exact ⟨c, hc, hxx, Or.inl hth, ha⟩

theorem mem_top_k_matches {sim : String → String → ℚ} {phrase : String}
    {table : List String} {k : ℕ} {c : String × ℚ}
    (hc : c ∈ top_k_matches sim phrase table k) :
    c.1 ∈ table ∧ c.2 = sim phrase c.1 := by
  unfold top_k_matches at hc
  have hc2 : c ∈ stableSort tkPrec (table.map (fun t => (t, sim phrase t))) :=
    List.mem_of_mem_take hc
  have hc3 : c ∈ table.map (fun t => (t, sim phrase t)) :=
    (mem_stableSort _ _ _).mp hc2
  rcases List.mem_map.mp hc3 with ⟨t, ht, rfl⟩
  exact ⟨ht, rfl⟩

theorem mem_processPhrase {p : MapperParams} {ph : String} {x : Assignment}
    (hx : x ∈ processPhrase p ph) :
    (∃ t, dict_tag p ph = some t ∧ x = ⟨t, ph, 1⟩) ∨
    (dict_tag p ph = none ∧ x ∈ fallback_results p ph) := by
  unfold processPhrase at hx
  cases hdt : dict_tag p ph with
  | some t =>
    rw [hdt] at hx
    exact Or.inl ⟨t, rfl, List.mem_singleton.mp hx⟩
  | none =>
    rw [hdt] at hx
    exact Or.inr ⟨rfl, hx⟩

theorem processPhrase_round4_fixed {p : MapperParams} {ph : String} {x : Assignment}
    (hx : x ∈ processPhrase p ph) :
    round4 x.confidence = x.confidence := by
  rcases mem_processPhrase hx with ⟨t, _, rfl⟩ | ⟨_, hx'⟩
  · exact round4_one
  · rcases mem_fallback_results hx' with ⟨c, _, rfl, _, _⟩
    exact round4_idem c.2

theorem contribs_round4_fixed {p : MapperParams} {phrases : List String}
    {x : Assignment} (hx : x ∈ contribs p phrases) :
    round4 x.confidence = x.confidence := by
  unfold contribs at hx
  rcases List.mem_flatMap.mp hx with ⟨ph, _, hx'⟩
  exact processPhrase_round4_fixed hx'

theorem mapCore_eq_sorted (p : MapperParams) (phrases : List String) :
    mapCore p phrases = stableSort confPrec (dedupByTag (contribs p phrases)) := by
  unfold mapCore
  have hid : ∀ e ∈ stableSort confPrec (dedupByTag (contribs p phrases)),
      { e with confidence := round4 e.confidence } = e := by
    intro e he
    have he2 := (mem_stableSort _ _ _).mp he
    obtain ⟨_, _, h3, _, _⟩ := dedupByTag_inv (contribs p phrases)
    rcases h3 e he2 with ⟨r, hr, _, hrc, _⟩
    have hfix : round4 e.confidence = e.confidence := by
      rw [← hrc]
      exact contribs_round4_fixed hr
    rw [hfix]
  rw [List.map_congr_left hid]
  simp

/-- Master description of the mapper output: unique tags, sorted by
confidence descending, tags are exactly the contributed tags, each entry
carries the confidence and source text of one contribution, that
confidence is maximal for the tag, and sources are exactly the non-empty
contributing phrases. -/
theorem mapCore_spec (p : MapperParams) (phrases : List String) :
    ((mapCore p phrases).map (fun e => e.tag)).Nodup ∧
    (mapCore p phrases).Pairwise (fun a b => b.confidence ≤ a.confidence) ∧
    (∀ t, (∃ e ∈ mapCore p phrases, e.tag = t) ↔
      (∃ r ∈ contribs p phrases, r.tag = t)) ∧
    (∀ e ∈ mapCore p phrases, ∃ r ∈ contribs p phrases, r.tag = e.tag ∧
      r.confidence = e.confidence ∧ r.source_text = e.source_text) ∧
    (∀ e ∈ mapCore p phrases, ∀ r ∈ contribs p phrases, r.tag = e.tag →
      r.confidence ≤ e.confidence) ∧
    (∀ e ∈ mapCore p phrases, e.sources.Nodup ∧ ∀ s, (s ∈ e.sources ↔
      (s ≠ "" ∧ ∃ r ∈ contribs p phrases, r.tag = e.tag ∧ r.source_text = s))) := by
  obtain ⟨h1, h2, h3, h4, h5⟩ := dedupByTag_inv (contribs p phrases)
  rw [mapCore_eq_sorted]
  have hperm := stableSort_perm confPrec (dedupByTag (contribs p phrases))
  refine ⟨?_, ?_, ?_, ?_, ?_, ?_⟩
  · exact (hperm.map (fun e => e.tag)).nodup_iff.mpr h1
  · have hp := stableSort_pairwise confPrec confPrec_asymm confPrec_negtrans
      (dedupByTag (contribs p phrases))
    exact hp.imp (fun h => le_of_not_lt (by simpa [confPrec] using h))
  · intro t
    constructor
    · rintro ⟨e, he, rfl⟩
      exact (h2 e.tag).mp ⟨e, hperm.mem_iff.mp he, rfl⟩
    · intro hr
      rcases (h2 t).mpr hr with ⟨e, he, het⟩
      exact ⟨e, hperm.mem_iff.mpr he, het⟩
  · intro e he
    exact h3 e (hperm.mem_iff.mp he)
  · intro e he
    exact h4 e (hperm.mem_iff.mp he)
  · intro e he
    exact h5 e (hperm.mem_iff.mp he)

/-! ### Matching engine helpers -/

theorem hard_block_of_rule {rules : List (String × List String)}
    {orgTypes redFlags : List String}
    (h : ∃ rf ∈ redFlags, ∃ req, List.lookup rf rules = some req ∧ req ≠ [] ∧
      ∀ t ∈ req, t ∉ orgTypes) :
    hard_block rules orgTypes redFlags = true := by
  rcases h with ⟨rf, hrf, req, hlook, hne, hdisj⟩
  unfold hard_block
  rw [List.any_eq_true]
  refine ⟨rf, hrf, ?_⟩
  rw [hlook]
  dsimp only
  rw [Bool.and_eq_true]
  constructor
  · simpa using hne
  · rw [List.all_eq_true]
    intro t ht
    simpa using hdisj t ht

theorem score_congr (st : MatchSettings) (env : MatchEnv)
    {org1 org2 grant1 grant2 : Profile}
    (ho : ∀ k, tag_set org1 k = tag_set org2 k)
    (hg : ∀ k, tag_set grant1 k = tag_set grant2 k) :
    score_and_reasons st env org1 grant1 = score_and_reasons st env org2 grant2 := by
  simp only [score_and_reasons, ho, hg]

theorem lookup_append_empty (xs : List (String × List String)) (key k : String) :
    ((List.lookup k (xs ++ [(key, ([] : List String))])).getD []) =
      ((List.lookup k xs).getD []) := by
  induction xs with
  | nil =>
    by_cases h : k == key <;> simp [List.lookup, h]
  | cons a xs ih =>
    cases a with
    | mk ak av =>
      by_cases h : k == ak <;> simp [List.lookup, h, ih]

theorem tag_set_withEmptyKey (p : Profile) (key k : String) :
    tag_set (withEmptyKey p key) k = tag_set p k := by
  unfold tag_set withEmptyKey
  rw [lookup_append_empty]

/-! ### Claim theorems for the matching engine -/

/-- C1: whenever a configured hard-block rule fires (some red-flag tag on
the grant has a non-empty required org-type set disjoint from the org's
org-type tags), `scoreMatch` returns score 0.0, bucket Avoid and the single
hard-block reason — and the result is the same for every embedding
environment and every setting of weights, penalty, similarity floor and
bucket thresholds, i.e. no overlap, weighting, penalty or bucketing
computation influences it. -/
theorem C1_hard_block_precedence (st : MatchSettings) (env : MatchEnv)
    (org grant : Profile)
    (h : ∃ rf ∈ tag_set grant "red_flag_tags", ∃ req,
      List.lookup rf st.hardBlocks = some req ∧ req ≠ [] ∧
      ∀ t ∈ req, t ∉ tag_set org "org_type_tags") :
    ∀ (st2 : MatchSettings) (env2 : MatchEnv), st2.hardBlocks = st.hardBlocks →
      score_and_reasons st2 env2 org grant =
        (0, "Avoid", [hardBlockReason (tag_set grant "red_flag_tags")]) := by
  intro st2 env2 hhb
  have hb : hard_block st2.hardBlocks (tag_set org "org_type_tags")
      (tag_set grant "red_flag_tags") = true := by
    rw [hhb]
    exact hard_block_of_rule h
  simp only [score_and_reasons]
  rw [if_pos hb]

/-- C5: geography overlap is 1.0 when the grant carries the national marker
and the org geography set is non-empty, 0.0 when the org geography set is
empty, and the exact overlap ratio |org ∩ grant| / |org| when no national
marker is present. -/
theorem C5_geography_superset (org grant : List String)
    (horg : org.Nodup) (hgrant : grant.Nodup) :
    ("us_national" ∈ grant ∧ org ≠ [] → geography_overlap org grant = 1) ∧
    (org = [] → geography_overlap org grant = 0) ∧
    ("us_national" ∉ grant → geography_overlap org grant =
      ((interTags org grant).length : ℚ) / (org.length : ℚ)) := by
  refine ⟨?_, ?_, ?_⟩
  · rintro ⟨hm, hne⟩
    unfold geography_overlap
    rw [if_neg hne, if_pos hm, if_pos hne]
  · intro he
    unfold geography_overlap
    rw [if_pos he]
  · intro hm
    unfold geography_overlap
    by_cases he : org = []
    · rw [if_pos he, he]
      simp [interTags]
    · rw [if_neg he, if_neg hm]
      unfold overlap_ratio
      rw [if_neg he]
      have h1 : max 1 org.length = org.length :=
        Nat.max_eq_right (List.length_pos.mpr he)
      rw [h1]

/-- C7: scoring is total (the embedding is a total Lean function, matching
the fact that `_score_and_reasons` only uses defaulting lookups), and a
profile with a taxonomy key missing from `canonical_tags` scores exactly
like the same profile with that key explicitly mapped to an empty tag
list, on either side of the match. -/
theorem C7_missing_key_is_empty (st : MatchSettings) (env : MatchEnv)
    (org grant : Profile) (key : String)
    (horg : List.lookup key org.canonical_tags = none) :
    tag_set org key = [] ∧
    (score_and_reasons st env (withEmptyKey org key) grant =
      score_and_reasons st env org grant) ∧
    (score_and_reasons st env org (withEmptyKey grant key) =
      score_and_reasons st env org grant) := by
  refine ⟨?_, ?_, ?_⟩
  · unfold tag_set
    rw [horg]
    rfl
  · exact score_congr st env (fun k => tag_set_withEmptyKey org key k) (fun k => rfl)
  · exact score_congr st env (fun k => rfl) (fun k => tag_set_withEmptyKey grant key k)

/-! ### Claim theorems for the phrase canonicalizer -/

/-- C4: `topKMatches` returns the `(tag, score)` pairs of the table scored
against the phrase, sorted descending by score with ties broken by
ascending tag string, truncated to `k` entries. The function itself is
modelled from the spec because its definition is absent from the source
tree (only its import and call sites are present). -/
theorem C4_top_k_matches_sorted (sim : String → String → ℚ) (phrase : String)
    (table : List String) (k : ℕ) :
    (top_k_matches sim phrase table k).Pairwise (fun a b =>
      b.2 ≤ a.2 ∧ (a.2 = b.2 → stringLt b.1 a.1 = false)) ∧
    (∀ c ∈ top_k_matches sim phrase table k, c.1 ∈ table ∧ c.2 = sim phrase c.1) ∧
    (top_k_matches sim phrase table k).length = min k table.length := by
  refine ⟨?_, fun c hc => mem_top_k_matches hc, ?_⟩
  · have hp := stableSort_pairwise tkPrec tkPrec_asymm tkPrec_negtrans
      (table.map (fun t => (t, sim phrase t)))
    unfold top_k_matches
    refine List.Pairwise.sublist (List.take_sublist _ _) (hp.imp ?_)
    intro a b h
    rw [tkPrec_eq_false_iff] at h
    exact ⟨le_of_not_lt h.1, fun he => h.2 he.symm⟩
  · unfold top_k_matches
    rw [List.length_take, stableSort_length, List.length_map]

/-- C10: when the normalized phrase has a dictionary entry but the
guardrail rejects the mapped tag, the phrase is not skipped: it is
processed by the embedding-similarity fallback exactly as if there were no
dictionary hit, so it can still contribute similarity-based assignments to
other tags. -/
theorem C10_guardrail_rejected_dict_falls_through (p : MapperParams)
    (phrase T : String)
    (hlook : List.lookup (normalize_text phrase) p.direct_map = some T)
    (hallow : p.allow phrase T = false) :
    processPhrase p phrase = fallback_results p phrase := by
  unfold processPhrase dict_tag
  rw [hlook]
  have hcond : ¬(T ≠ "" ∧ p.allow phrase T = true) := by
    rintro ⟨-, h2⟩
    rw [hallow] at h2
    exact Bool.false_ne_true h2
  dsimp only
  rw [if_neg hcond]

theorem contribs_le_one {p : MapperParams} {phrases : List String}
    (hsim : ∀ ph t, p.sim ph t ≤ 1) :
    ∀ r ∈ contribs p phrases, r.confidence ≤ 1 := by
  intro r hr
  rcases List.mem_flatMap.mp hr with ⟨ph, _, hr'⟩
  rcases mem_processPhrase hr' with ⟨t, _, rfl⟩ | ⟨_, hf⟩
  · exact le_refl 1
  · rcases mem_fallback_results hf with ⟨c, hc, rfl, _, _⟩
    have hsc : c.2 = p.sim ph c.1 := (mem_top_k_matches hc).2
    exact round4_le_one (by rw [hsc]; exact hsim ph c.1)

theorem contribs_nonneg {p : MapperParams} {phrases : List String}
    (hstrict : 0 ≤ p.strict) (hloose : 0 ≤ p.loose) :
    ∀ r ∈ contribs p phrases, 0 ≤ r.confidence := by
  intro r hr
  rcases List.mem_flatMap.mp hr with ⟨ph, _, hr'⟩
  rcases mem_processPhrase hr' with ⟨t, _, rfl⟩ | ⟨_, hf⟩
  · exact zero_le_one
  · rcases mem_fallback_results hf with ⟨c, _, rfl, hth, _⟩
    rcases hth with hth | hth
    · exact round4_nonneg (le_trans hstrict hth)
    · exact round4_nonneg (le_trans hloose hth)

theorem dict_mem_contribs {p : MapperParams} {phrases : List String}
    {ph t : String} (hph : ph ∈ phrases) (hdt : dict_tag p ph = some t) :
    (⟨t, ph, 1⟩ : Assignment) ∈ contribs p phrases := by
  unfold contribs
  refine List.mem_flatMap.mpr ⟨ph, hph, ?_⟩
  unfold processPhrase
  rw [hdt]
  exact List.mem_singleton.mpr rfl

theorem mapCore_dict_entry {p : MapperParams} {phrases : List String}
    {ph t : String} (hph : ph ∈ phrases) (hdt : dict_tag p ph = some t)
    (hsim : ∀ ph u, p.sim ph u ≤ 1) :
    ∃ e ∈ mapCore p phrases, e.tag = t ∧ e.confidence = 1 := by
  obtain ⟨-, -, s3, s4, s5, -⟩ := mapCore_spec p phrases
  have hmem := dict_mem_contribs hph hdt
  rcases (s3 t).mpr ⟨_, hmem, rfl⟩ with ⟨e, he, het⟩
  refine ⟨e, he, het, ?_⟩
  have hge : (1:ℚ) ≤ e.confidence := s5 e he _ hmem het.symm
  have hle : e.confidence ≤ 1 := by
    rcases s4 e he with ⟨r, hr, -, hrc, -⟩
    rw [← hrc]
    exact contribs_le_one hsim r hr
  exact le_antisymm hle hge

/-- C2: an exact dictionary hit (the normalized phrase equals a normalized
canonical tag name or synonym key mapping to tag `T`, and the guardrail
accepts it) makes the mapper output contain `T` at confidence exactly 1.0
(given that similarity scores respect the cosine bound ≤ 1), and the
processing of that phrase is identical for every similarity oracle — no
embedding-similarity scoring influences it. -/
theorem C2_dictionary_precedence (a : TaxonomyAssets) (table : List String)
    (sim : String → String → ℚ) (allow : String → String → Bool)
    (strict loose : ℚ) (k : ℕ) (top1 : Bool) (phrases : List String)
    (P T : String)
    (htbl : a.embedding_tags = some table)
    (hlook : List.lookup (normalize_text P)
      (buildDirectMap (a.tag_list.getD []) a.synonyms) = some T)
    (hT : T ≠ "") (hallow : allow P T = true) (hmem : P ∈ phrases)
    (hsim : ∀ ph t, sim ph t ≤ 1) :
    (∃ l, map_phrases_to_canonical a sim allow strict loose k top1 phrases =
        Except.ok l ∧ ∃ e ∈ l, e.tag = T ∧ e.confidence = 1) ∧
    (∀ sim1 sim2 : String → String → ℚ,
      processPhrase (mkParams a table sim1 allow strict loose k top1) P =
      processPhrase (mkParams a table sim2 allow strict loose k top1) P) := by
  have hdt : ∀ (s : String → String → ℚ),
      dict_tag (mkParams a table s allow strict loose k top1) P = some T := by
    intro s
    unfold dict_tag mkParams
    dsimp only
    rw [hlook]
    dsimp only
    rw [if_pos ⟨hT, hallow⟩]
  constructor
  · refine ⟨mapCore (mkParams a table sim allow strict loose k top1) phrases, ?_, ?_⟩
    · unfold map_phrases_to_canonical load_embeddings
      rw [htbl]
    · exact mapCore_dict_entry hmem (hdt sim) hsim
  · intro sim1 sim2
    unfold processPhrase
    rw [hdt sim1, hdt sim2]

/-- C9 (amended): when the strict and loose thresholds are nonnegative (as
all configured thresholds are) and the similarity oracle respects the
cosine bound ≤ 1, every produced assignment has confidence in [0, 1], and
a tag reached through an exact dictionary hit has confidence exactly 1.0.
The original claim, with no restriction on the caller-supplied threshold,
is refuted by `C9_confidence_range_cex`. -/
theorem C9_confidence_in_range (p : MapperParams) (phrases : List String)
    (hstrict : 0 ≤ p.strict) (hloose : 0 ≤ p.loose)
    (hsim : ∀ ph t, p.sim ph t ≤ 1) :
    (∀ e ∈ mapCore p phrases, 0 ≤ e.confidence ∧ e.confidence ≤ 1) ∧
    (∀ ph ∈ phrases, ∀ t, dict_tag p ph = some t →
      ∃ e ∈ mapCore p phrases, e.tag = t ∧ e.confidence = 1) := by
  obtain ⟨-, -, -, s4, -, -⟩ := mapCore_spec p phrases
  constructor
  · intro e he
    rcases s4 e he with ⟨r, hr, -, hrc, -⟩
    rw [← hrc]
    exact ⟨contribs_nonneg hstrict hloose r hr, contribs_le_one hsim r hr⟩
  · intro ph hph t hdt
    exact mapCore_dict_entry hph hdt hsim

theorem accept_by_thresh_length_mono (p : MapperParams) (phrase : String)
    (cands : List (String × ℚ)) {t1 t2 : ℚ} (h12 : t1 ≤ t2) :
    (accept_by_thresh p phrase cands t2).length ≤
    (accept_by_thresh p phrase cands t1).length := by
  by_cases htop : p.top1_gate = true
  · unfold accept_by_thresh
    rw [if_pos htop, if_pos htop]
    cases cands with
    | nil => exact le_refl _
    | cons c cs =>
      cases c with
      | mk tg sc =>
        by_cases h2a : t2 ≤ sc ∧ p.allow phrase tg = true
        · have h1a : t1 ≤ sc ∧ p.allow phrase tg = true :=
            ⟨le_trans h12 h2a.1, h2a.2⟩
          simp only [if_pos h2a, if_pos h1a]
          exact le_refl _
        · simp only [if_neg h2a]
          simp
  · unfold accept_by_thresh
    rw [if_neg htop, if_neg htop]
    induction cands with
    | nil => exact le_refl _
    | cons c cs ih =>
      rw [List.filterMap_cons, List.filterMap_cons]
      by_cases h2a : t2 ≤ c.2 ∧ p.allow phrase c.1 = true
      · have h1a : t1 ≤ c.2 ∧ p.allow phrase c.1 = true :=
          ⟨le_trans h12 h2a.1, h2a.2⟩
        simp only [if_pos h2a, if_pos h1a]
        simpa using ih
      · simp only [if_neg h2a]
        by_cases h1a : t1 ≤ c.2 ∧ p.allow phrase c.1 = true
        · simp only [if_pos h1a]
          exact le_trans ih (by simp)
        · simp only [if_neg h1a]
          exact ih

theorem fallback_length_eq_strict (p : MapperParams) (phrase : String)
    (hl : p.strict ≤ p.loose) :
    (fallback_results p phrase).length =
    (accept_by_thresh p phrase
      (top_k_matches p.sim phrase p.table_tags p.top_k) p.strict).length := by
  simp only [fallback_results]
  split_ifs with h1 h2
  · exact absurd h2 (not_lt.mpr hl)
  · rw [h1]
  · rfl

/-- C3 (amended): with the loose threshold at least as high as the raised
strict threshold (so the loose retry can never fire), raising the strict
threshold never increases the number of accepted similarity-based
assignments. Without that proviso the original claim is refuted by
`C3_threshold_monotonic_cex`: raising the strict threshold can empty the
strict pass and hand the phrase to the loose retry, which may accept more
assignments than the lower strict threshold did. -/
theorem C3_threshold_monotonic (p : MapperParams) (phrases : List String)
    (t1 t2 : ℚ) (h12 : t1 ≤ t2) (hloose : t2 ≤ p.loose) :
    simCount { p with strict := t2 } phrases ≤
    simCount { p with strict := t1 } phrases := by
  unfold simCount
  apply List.sum_le_sum
  intro ph hph
  cases hd : dict_tag p ph with
  | some t =>
    have e2 : dict_tag { p with strict := t2 } ph = some t := hd
    have e1 : dict_tag { p with strict := t1 } ph = some t := hd
    rw [e2, e1]
  | none =>
    have e2 : dict_tag { p with strict := t2 } ph = none := hd
    have e1 : dict_tag { p with strict := t1 } ph = none := hd
    rw [e2, e1]
    dsimp only
    have hl2 : ({ p with strict := t2 } : MapperParams).strict ≤
        ({ p with strict := t2 } : MapperParams).loose := hloose
    have hl1 : ({ p with strict := t1 } : MapperParams).strict ≤
        ({ p with strict := t1 } : MapperParams).loose := le_trans h12 hloose
    rw [fallback_length_eq_strict _ _ hl2, fallback_length_eq_strict _ _ hl1]
    exact accept_by_thresh_length_mono p ph
      (top_k_matches p.sim ph p.table_tags p.top_k) h12

/-- C6 (amended): the mapper output has at most one entry per tag, sorted
by confidence descending with 4-digit-rounded confidences; each entry
carries the maximal contributing confidence together with the source text
of a contribution achieving it, and its `sources` list holds exactly the
non-empty contributing phrases, without duplicates. The original claim
(`sources` contains every contributing phrase) is refuted by
`C6_dedup_sources_cex`: an empty-string phrase contributes but is never
recorded in `sources`, because Python treats it as falsy. -/
theorem C6_dedup_aggregation (p : MapperParams) (phrases : List String) :
    ((mapCore p phrases).map (fun e => e.tag)).Nodup ∧
    (mapCore p phrases).Pairwise (fun a b => b.confidence ≤ a.confidence) ∧
    (∀ e ∈ mapCore p phrases,
      (∃ r ∈ contribs p phrases, r.tag = e.tag ∧ r.confidence = e.confidence ∧
        r.source_text = e.source_text) ∧
      (∀ r ∈ contribs p phrases, r.tag = e.tag → r.confidence ≤ e.confidence) ∧
      round4 e.confidence = e.confidence ∧
      e.sources.Nodup ∧
      (∀ s, s ∈ e.sources ↔ (s ≠ "" ∧ ∃ r ∈ contribs p phrases,
        r.tag = e.tag ∧ r.source_text = s))) := by
  obtain ⟨s1, s2, s3, s4, s5, s6⟩ := mapCore_spec p phrases
  refine ⟨s1, s2, fun e he => ⟨s4 e he, s5 e he, ?_, (s6 e he).1, (s6 e he).2⟩⟩
  rcases s4 e he with ⟨r, hr, -, hrc, -⟩
  rw [← hrc]
  exact contribs_round4_fixed hr

/-- C8 (amended): a missing embeddings table makes
`map_phrases_to_canonical` fail with the propagated not-found error before
any mapping happens, for every phrase list; a present embeddings table
always yields a successful result; and a missing canonical tag list is not
an error — the run behaves exactly as if the tag list were present but
empty, so the dictionary holds only the synonym entries (similarity-only
matching when no synonyms are configured). The original claim's "empty
dictionary / similarity-only" reading is refuted by
`C8_missing_tag_list_cex` when synonyms are configured. -/
theorem C8_asset_error_asymmetry (a : TaxonomyAssets)
    (sim : String → String → ℚ) (allow : String → String → Bool)
    (strict loose : ℚ) (k : ℕ) (top1 : Bool) (phrases : List String) :
    (a.embedding_tags = none →
      map_phrases_to_canonical a sim allow strict loose k top1 phrases =
        Except.error "Missing embeddings for taxonomy") ∧
    (∀ table, a.embedding_tags = some table →
      map_phrases_to_canonical a sim allow strict loose k top1 phrases =
        Except.ok (mapCore (mkParams a table sim allow strict loose k top1)
          phrases)) ∧
    (a.tag_list = none →
      map_phrases_to_canonical a sim allow strict loose k top1 phrases =
        map_phrases_to_canonical ⟨a.embedding_tags, some [], a.synonyms⟩
          sim allow strict loose k top1 phrases) := by
  refine ⟨?_, ?_, ?_⟩
  · intro hnone
    unfold map_phrases_to_canonical load_embeddings
    rw [hnone]
  · intro table htbl
    unfold map_phrases_to_canonical load_embeddings
    rw [htbl]
  · intro htl
    unfold map_phrases_to_canonical load_embeddings mkParams
    dsimp only
    rw [htl]
    rfl

/-! ### Counterexamples -/

/-- C9 counterexample: with a caller-supplied negative similarity threshold,
`map_phrases_to_canonical` emits an assignment with negative confidence, so
the claimed invariant confidence ∈ [0, 1] fails as stated for every input of
the function. -/
theorem C9_confidence_range_cex :
    ∃ l, map_phrases_to_canonical ⟨some ["a"], none, []⟩
        (fun _ _ => -(1/2)) (fun _ _ => true) (-1) (-1) 5 false ["z"] =
      Except.ok l ∧ ∃ e ∈ l, e.confidence < 0 := by
  refine ⟨mapCore (mkParams ⟨some ["a"], none, []⟩ ["a"] (fun _ _ => -(1/2))
    (fun _ _ => true) (-1) (-1) 5 false) ["z"], rfl, ?_⟩
  have hc : contribs (mkParams ⟨some ["a"], none, []⟩ ["a"] (fun _ _ => -(1/2))
      (fun _ _ => true) (-1) (-1) 5 false) ["z"] = [⟨"a", "z", -(1/2)⟩] := by
    norm_num [contribs, processPhrase, dict_tag, fallback_results,
      accept_by_thresh, top_k_matches, stableSort, insertSorted, tkPrec,
      mkParams, buildDirectMap, normalize_text, round4, rhe, List.lookup,
      List.filterMap]
  obtain ⟨-, -, s3, s4, -, -⟩ := mapCore_spec (mkParams ⟨some ["a"], none, []⟩
    ["a"] (fun _ _ => -(1/2)) (fun _ _ => true) (-1) (-1) 5 false) ["z"]
  rcases (s3 "a").mpr ⟨⟨"a", "z", -(1/2)⟩,
    by rw [hc]; exact List.mem_singleton.mpr rfl, rfl⟩ with ⟨e, he, het⟩
  refine ⟨e, he, ?_⟩
  rcases s4 e he with ⟨r, hr, -, hrc, -⟩
  rw [hc] at hr
  have hre : r = ⟨"a", "z", -(1/2)⟩ := List.mem_singleton.mp hr
  rw [← hrc, hre]
  norm_num

/-- C3 counterexample: raising the strict threshold from 0.65 to 0.75 over
candidates scoring 0.7 and 0.6 with loose threshold 0.5 empties out the
strict pass, so the loose retry fires and accepts two similarity
assignments where the lower strict threshold accepted one. -/
theorem C3_threshold_monotonic_cex :
    (13/20 : ℚ) < 3/4 ∧
    simCount ⟨[], ["a", "b"], (fun _ t => if t = "a" then 7/10 else 3/5),
      (fun _ _ => true), 13/20, 1/2, 5, false⟩ ["z"] = 1 ∧
    simCount ⟨[], ["a", "b"], (fun _ t => if t = "a" then 7/10 else 3/5),
      (fun _ _ => true), 3/4, 1/2, 5, false⟩ ["z"] = 2 := by
  refine ⟨by norm_num, ?_, ?_⟩ <;>
    norm_num [simCount, dict_tag, fallback_results, accept_by_thresh,
      top_k_matches, stableSort, insertSorted, tkPrec, stringLt, charListLt,
      normalize_text, round4, rhe, List.lookup, List.filterMap,
      (by decide : ("b" : String) ≠ "a"), (by decide : ¬ ('b'.toNat < 'a'.toNat))]

/-- C6 counterexample: the empty-string phrase hits the dictionary (a
taxonomy whose tag normalizes to the empty string), so it contributes an
assignment, but Python treats the empty source text as falsy and never
records it, so `sources` misses a contributing phrase. -/
theorem C6_dedup_sources_cex :
    ∃ l, map_phrases_to_canonical ⟨some [], some ["--"], []⟩ (fun _ _ => 0)
        (fun _ _ => true) (1/2) (1/2) 5 false [""] = Except.ok l ∧
      ∃ e ∈ l, e.tag = "--" ∧
        (∃ r ∈ contribs (mkParams ⟨some [], some ["--"], []⟩ []
            (fun _ _ => 0) (fun _ _ => true) (1/2) (1/2) 5 false) [""],
          r.tag = "--" ∧ r.source_text = "") ∧
        "" ∉ e.sources := by
  refine ⟨mapCore (mkParams ⟨some [], some ["--"], []⟩ [] (fun _ _ => 0)
    (fun _ _ => true) (1/2) (1/2) 5 false) [""], rfl, ?_⟩
  have hc : contribs (mkParams ⟨some [], some ["--"], []⟩ [] (fun _ _ => 0)
      (fun _ _ => true) (1/2) (1/2) 5 false) [""] = [⟨"--", "", 1⟩] := rfl
  obtain ⟨-, -, s3, -, -, s6⟩ := mapCore_spec (mkParams ⟨some [], some ["--"], []⟩
    [] (fun _ _ => 0) (fun _ _ => true) (1/2) (1/2) 5 false) [""]
  rcases (s3 "--").mpr ⟨⟨"--", "", 1⟩,
    by rw [hc]; exact List.mem_singleton.mpr rfl, rfl⟩ with ⟨e, he, het⟩
  refine ⟨e, he, het, ⟨⟨"--", "", 1⟩,
    by rw [hc]; exact List.mem_singleton.mpr rfl, rfl, rfl⟩, ?_⟩
  intro hmem
  exact (((s6 e he).2 "").mp hmem).1 rfl


/-- C8 counterexample: with the canonical tag list file absent but a synonym
configured, `map_phrases_to_canonical` still produces a dictionary hit at
confidence 1.0 — the dictionary is not empty and matching is not
similarity-only (the same run with a truly empty dictionary returns no
assignments, since every similarity score is 0, below the 0.9 threshold). -/
theorem C8_missing_tag_list_cex :
    (⟨some ["x"], none, [("Foo", "bar")]⟩ : TaxonomyAssets).tag_list = none ∧
    (∃ l, map_phrases_to_canonical ⟨some ["x"], none, [("Foo", "bar")]⟩
        (fun _ _ => 0) (fun _ _ => true) (9/10) (9/10) 5 false ["foo!"] =
      Except.ok l ∧ ∃ e ∈ l, e.tag = "bar" ∧ e.confidence = 1) ∧
    mapCore ⟨[], ["x"], (fun _ _ => 0), (fun _ _ => true), 9/10, 9/10, 5,
      false⟩ ["foo!"] = [] := by
  refine ⟨rfl, ?_, ?_⟩
  · refine ⟨mapCore (mkParams ⟨some ["x"], none, [("Foo", "bar")]⟩ ["x"]
      (fun _ _ => 0) (fun _ _ => true) (9/10) (9/10) 5 false) ["foo!"],
      rfl, ?_⟩
    exact mapCore_dict_entry (List.mem_singleton.mpr rfl) rfl
      (fun ph t => (by norm_num : (0:ℚ) ≤ 1))
  · norm_num [mapCore, contribs, processPhrase, dict_tag, fallback_results,
      accept_by_thresh, top_k_matches, stableSort, insertSorted, tkPrec,
      dedupByTag, confPrec, normalize_text, round4, rhe, List.lookup,
      List.filterMap]

/-! ### Witnesses -/

theorem C1_hard_block_precedence_witness :
    score_and_reasons
      ⟨1/2, 2/5, 1/10, 2/5, 3/5, 2/5, 17/20, 1/2,
        [("higher_education_only", ["higher_education_institution",
          "four_year_university", "community_college"])]⟩
      ⟨fun _ => none⟩
      ⟨[("org_type_tags", ["nonprofit_501c3"])]⟩
      ⟨[("red_flag_tags", ["higher_education_only"])]⟩ =
    (0, "Avoid", ["Hard block due to red flags: [higher_education_only]"]) := by
  have h := C1_hard_block_precedence
    ⟨1/2, 2/5, 1/10, 2/5, 3/5, 2/5, 17/20, 1/2,
      [("higher_education_only", ["higher_education_institution",
        "four_year_university", "community_college"])]⟩
    ⟨fun _ => none⟩
    ⟨[("org_type_tags", ["nonprofit_501c3"])]⟩
    ⟨[("red_flag_tags", ["higher_education_only"])]⟩
    ⟨"higher_education_only", by decide, ["higher_education_institution",
      "four_year_university", "community_college"], rfl, by decide, by decide⟩
    ⟨1/2, 2/5, 1/10, 2/5, 3/5, 2/5, 17/20, 1/2,
      [("higher_education_only", ["higher_education_institution",
        "four_year_university", "community_college"])]⟩
    ⟨fun _ => none⟩ rfl
  rw [h]
  rfl

theorem C2_dictionary_precedence_witness :
    ∃ l, map_phrases_to_canonical ⟨some ["t1"], some ["Tag"], []⟩
        (fun _ _ => 0) (fun _ _ => true) (7/10) (7/10) 5 false ["TAG!"] =
      Except.ok l ∧ ∃ e ∈ l, e.tag = "Tag" ∧ e.confidence = 1 :=
  (C2_dictionary_precedence ⟨some ["t1"], some ["Tag"], []⟩ ["t1"]
    (fun _ _ => 0) (fun _ _ => true) (7/10) (7/10) 5 false ["TAG!"]
    "TAG!" "Tag" rfl (by decide) (by decide) rfl (by decide)
    (fun ph t => by norm_num)).1

theorem C3_threshold_monotonic_witness :
    simCount { (⟨[], ["a"], (fun _ _ => 0), (fun _ _ => true), 1/2, 7/10, 5,
      false⟩ : MapperParams) with strict := (3/5 : ℚ) } ["z"] ≤
    simCount { (⟨[], ["a"], (fun _ _ => 0), (fun _ _ => true), 1/2, 7/10, 5,
      false⟩ : MapperParams) with strict := (1/2 : ℚ) } ["z"] :=
  C3_threshold_monotonic ⟨[], ["a"], (fun _ _ => 0), (fun _ _ => true), 1/2,
    7/10, 5, false⟩ ["z"] (1/2) (3/5) (by norm_num)
    ((by norm_num : (3:ℚ)/5 ≤ 7/10))

theorem C4_top_k_matches_witness :
    (top_k_matches (fun _ _ => 0) "p" ["a", "b"] 5).length = 2 := by
  have h := (C4_top_k_matches_sorted (fun _ _ => 0) "p" ["a", "b"] 5).2.2
  simpa using h

theorem C5_geography_superset_witness :
    geography_overlap ["boston_ma"] ["us_national"] = 1 :=
  (C5_geography_superset ["boston_ma"] ["us_national"] (by decide)
    (by decide)).1 ⟨by decide, by decide⟩

theorem C6_dedup_aggregation_witness :
    ((mapCore ⟨[], ["a"], (fun _ _ => 0), (fun _ _ => true), 1/2, 1/2, 5,
      false⟩ ["x"]).map (fun e => e.tag)).Nodup :=
  (C6_dedup_aggregation ⟨[], ["a"], (fun _ _ => 0), (fun _ _ => true), 1/2,
    1/2, 5, false⟩ ["x"]).1

theorem C7_missing_key_witness :
    tag_set ⟨[]⟩ "mission_tags" = [] :=
  (C7_missing_key_is_empty ⟨0, 0, 0, 0, 0, 0, 0, 0, []⟩ ⟨fun _ => none⟩
    ⟨[]⟩ ⟨[]⟩ "mission_tags" rfl).1

theorem C8_asset_error_asymmetry_witness :
    map_phrases_to_canonical ⟨none, some ["t"], []⟩ (fun _ _ => 0)
      (fun _ _ => true) (1/2) (1/2) 5 false ["x"] =
    Except.error "Missing embeddings for taxonomy" :=
  (C8_asset_error_asymmetry ⟨none, some ["t"], []⟩ (fun _ _ => 0)
    (fun _ _ => true) (1/2) (1/2) 5 false ["x"]).1 rfl

theorem C9_confidence_in_range_witness :
    ∃ e ∈ mapCore ⟨[("x", "atag")], ["a"], (fun _ _ => 1/2), (fun _ _ => true),
      1/2, 1/2, 5, false⟩ ["x"], e.tag = "atag" ∧ e.confidence = 1 :=
  (C9_confidence_in_range ⟨[("x", "atag")], ["a"], (fun _ _ => 1/2),
    (fun _ _ => true), 1/2, 1/2, 5, false⟩ ["x"]
    ((by norm_num : (0:ℚ) ≤ 1/2)) ((by norm_num : (0:ℚ) ≤ 1/2))
    (fun ph t => (by norm_num : (1:ℚ)/2 ≤ 1))).2 "x" (by decide) "atag" rfl

theorem C10_guardrail_witness :
    processPhrase ⟨[("x", "xtag")], ["other"], (fun _ _ => 1),
      (fun _ t => decide (t ≠ "xtag")), 1/2, 1/2, 5, false⟩ "X" =
    fallback_results ⟨[("x", "xtag")], ["other"], (fun _ _ => 1),
      (fun _ t => decide (t ≠ "xtag")), 1/2, 1/2, 5, false⟩ "X" :=
  C10_guardrail_rejected_dict_falls_through ⟨[("x", "xtag")], ["other"],
    (fun _ _ => 1), (fun _ t => decide (t ≠ "xtag")), 1/2, 1/2, 5, false⟩
    "X" "xtag" (by decide) (by decide)

end EdGrant
